import Mathlib

/-!
Verification development for the backup utility (`backup_az_final.py`).

Paths are modelled as lists of characters, as in Python strings restricted to
the operations the program uses.  The destination filesystem is modelled as
the list of paths that currently exist.  `datetime.utcnow` is modelled by an
oracle `times : Nat -> UTCTime` giving the result of each successive clock
query, and a failure of `shutil.copy2` by an oracle returning the error
message, if any, for a given source and resolved target.
-/

/-- Python strings (here: filesystem paths) are modelled as lists of
characters. -/
abbrev Str := List Char

/-- Shorthand turning a Lean string literal into a modelled path. -/
def str (s : String) : Str := s.data

/-- The relative path of the traversal root, as `os.path.relpath` returns it
for the root itself. -/
def dotS : Str := ['.']

/-- `os.path.exists` over the modelled filesystem: the list of paths that
exist. -/
def pexists (fs : List Str) (p : Str) : Bool := decide (p ∈ fs)

/-- `os.path.basename`: the characters after the last slash. -/
def basename : Str → Str
  | [] => []
  | c :: cs =>
    if '/' ∈ cs then basename cs
    else if c = '/' then cs else c :: cs

/-- The prefix of a path up to and including its last slash
(`p[:p.rfind(sep) + 1]` in `posixpath.dirname`); empty if there is no
slash. -/
def takeToLastSep : Str → Str
  | [] => []
  | c :: cs =>
    if '/' ∈ cs then c :: takeToLastSep cs
    else if c = '/' then ['/'] else []

/-- `head.rstrip(sep)` as used by `posixpath.dirname`. -/
def rstripSlash (s : Str) : Str :=
  (s.reverse.dropWhile (fun c => decide (c = '/'))).reverse

/-- `os.path.dirname` (POSIX): everything up to the last slash, with trailing
slashes stripped unless the result consists only of slashes. -/
def dirname (p : Str) : Str :=
  if takeToLastSep p ≠ [] ∧ ¬ ((takeToLastSep p).all fun c => decide (c = '/')) then
    rstripSlash (takeToLastSep p)
  else takeToLastSep p

/-- `os.path.join` (POSIX) for two components: an absolute second component
replaces the first; otherwise a slash is inserted unless the first component
is empty or already ends with a slash. -/
def joinPath (a b : Str) : Str :=
  if b.head? = some '/' then b
  else if a = [] ∨ a.getLast? = some '/' then a ++ b
  else a ++ '/' :: b

/-- Splits a string at its last dot: returns the parts before and from the
last dot; the second component is empty when the string has no dot. -/
def splitAtLastDot : Str → Str × Str
  | [] => ([], [])
  | c :: cs =>
    let p := splitAtLastDot cs
    if p.2 = [] then
      if c = '.' then ([], '.' :: cs) else (c :: cs, [])
    else (c :: p.1, p.2)

/-- `os.path.splitext` on a string without separators (the program only
applies it to basenames): the extension starts at the last dot, except that
leading dots never start an extension (as for hidden files such as
`.env`). -/
def splitext (b : Str) : Str × Str :=
  let lead := b.takeWhile (fun c => decide (c = '.'))
  let r := b.dropWhile (fun c => decide (c = '.'))
  if '.' ∈ r then (lead ++ (splitAtLastDot r).1, (splitAtLastDot r).2)
  else (b, [])

/-- The broken-down UTC time returned by one `datetime.utcnow()` call.
`datetime` guarantees `1 <= year <= 9999`, `1 <= month <= 12`, and so on;
those bounds appear as hypotheses where a statement needs them. -/
structure UTCTime where
  year : Nat
  month : Nat
  day : Nat
  hour : Nat
  minute : Nat
  second : Nat
  deriving DecidableEq

/-- A decimal digit character. -/
def dig (n : Nat) : Char := Nat.digitChar n

/-- A field printed by `strftime` as two zero-padded digits (`%m`, `%d`,
`%H`, `%M`, `%S`; all such fields are below 100). -/
def two0 (n : Nat) : Str := [dig (n / 10), dig (n % 10)]

/-- A field printed by `strftime` as four zero-padded digits (`%Y`; the year
of a `datetime` is below 10000). -/
def four0 (n : Nat) : Str :=
  [dig (n / 1000), dig (n / 100 % 10), dig (n / 10 % 10), dig (n % 10)]

/-- `strftime` of the pattern `%Y%m%d-%H%M%S`. -/
def tsFormat (t : UTCTime) : Str :=
  four0 t.year ++ (two0 t.month ++ (two0 t.day ++
    ('-' :: (two0 t.hour ++ (two0 t.minute ++ two0 t.second)))))

/-- `unique_name` from `backup_az_final.py`: returns the path unchanged when
nothing exists there, and otherwise inserts `_` and the formatted current UTC
time `t` between stem and extension of the basename. -/
def unique_name (fs : List Str) (t : UTCTime) (path : Str) : Str :=
  if pexists fs path = false then path
  else
    let base := basename path
    let se := splitext base
    let new_base := se.1 ++ '_' :: (tsFormat t ++ se.2)
    joinPath (dirname path) new_base

mutual

/-- A source directory tree, as `os.walk` observes it: the filenames of the
directory and its named subdirectories. -/
inductive DirTree : Type where
  | node (files : List Str) (subdirs : SubDirs) : DirTree

/-- The named subdirectories of a `DirTree` node, in listing order. -/
inductive SubDirs : Type where
  | nil : SubDirs
  | cons (name : Str) (tree : DirTree) (rest : SubDirs) : SubDirs

end

/-- The relative path of a child directory, as `os.path.relpath` yields it:
the bare name below the root, a slash-joined path deeper down. -/
def childRel (rel name : Str) : Str :=
  if rel = dotS then name else rel ++ '/' :: name

mutual

/-- `os.walk` (top-down) paired with `os.path.relpath(root, src_dir)`: the
list of traversal levels, each carrying its relative path and its
filenames. -/
def walkRel (rel : Str) : DirTree → List (Str × List Str)
  | .node files subs => (rel, files) :: walkSubs rel subs

/-- The levels contributed by a list of subdirectories, depth-first. -/
def walkSubs (rel : Str) : SubDirs → List (Str × List Str)
  | .nil => []
  | .cons name t rest => walkRel (childRel rel name) t ++ walkSubs rel rest

end

/-- The destination directory chosen for one traversal level
(`backup_recursive`, line 62): `dest_dir` in flat mode, otherwise `dest_dir`
joined with the relative path, with `.` mapping to `dest_dir` itself. -/
def target_dir (dest_dir : Str) (flat : Bool) (rel : Str) : Str :=
  if flat then dest_dir
  else if rel ≠ dotS then joinPath dest_dir rel else dest_dir

/-- The directory together with its iterated parents, as `os.makedirs`
creates them recursively.  The fuel argument only bounds the recursion; each
step strictly shortens the path, so `p.length` steps always suffice. -/
def dirChainAux : Nat → Str → List Str
  | 0, p => [p]
  | n + 1, p =>
    if dirname p = [] ∨ dirname p = p then [p] else p :: dirChainAux n (dirname p)

/-- The set of directories `os.makedirs p` ensures exist: `p` and its
parents. -/
def dirChain (p : Str) : List Str := dirChainAux p.length p

/-- The filesystem after `os.makedirs(p, exist_ok=True)`. -/
def makedirsFS (fs : List Str) (p : Str) : List Str := dirChain p ++ fs

/-- The run state: the paths existing on the destination filesystem, and how
many times `datetime.utcnow` has been queried. -/
structure St where
  fs : List Str
  clock : Nat
  deriving DecidableEq

/-- One run configuration: the flags of the invocation together with the
oracles for clock queries and for per-file copy failures. -/
structure Cfg where
  times : Nat → UTCTime
  fails : Str → Str → Option Str
  flat : Bool
  dry_run : Bool
  verbose : Bool

/-- The observable actions of a run: a performed `os.makedirs`, a dry-run
`Ensure directory exists` report, a copy or rename (reported in dry-run mode,
performed in live mode; `renamed` records whether the resolved target differs
from the planned destination), and a failure report on standard error
carrying the paths and the underlying message. -/
inductive Event : Type where
  | mkdirE (path : Str)
  | dryEnsure (path : Str)
  | copyA (renamed : Bool) (src target : Str)
  | failE (src target msg : Str)
  deriving DecidableEq

/-- `copy_file` from `backup_az_final.py`: resolve the target through
`unique_name` (querying the clock when the planned destination exists), then
either report the planned action (dry run), or perform the copy, catching any
failure and reporting it without propagating. -/
def copy_file (c : Cfg) (src_file dest_file : Str) (st : St) : St × List Event :=
  let target := unique_name st.fs (c.times st.clock) dest_file
  let st1 : St := ⟨st.fs, if pexists st.fs dest_file then st.clock + 1 else st.clock⟩
  if c.dry_run then
    (st1, [Event.copyA (decide (target ≠ dest_file)) src_file target])
  else
    match c.fails src_file target with
    | some msg => (st1, [Event.failE src_file target msg])
    | none => (⟨target :: st1.fs, st1.clock⟩,
        [Event.copyA (decide (target ≠ dest_file)) src_file target])

/-- The per-file loop of one traversal level (`backup_recursive`,
lines 67-70). -/
def processFiles (c : Cfg) (root tdir : Str) : List Str → St → St × List Event
  | [], st => (st, [])
  | f :: rest, st =>
    let r1 := copy_file c (joinPath root f) (joinPath tdir f) st
    let r2 := processFiles c root tdir rest r1.1
    (r2.1, r1.2 ++ r2.2)

/-- The body of `backup_recursive` over the walked levels: per level, create
the target directory (or, when simulating, report the intent only if
verbose), then process the files of the level. -/
def runWalk (c : Cfg) (src_dir dest_dir : Str) :
    List (Str × List Str) → St → St × List Event
  | [], st => (st, [])
  | (rel, files) :: rest, st =>
    let tdir := target_dir dest_dir c.flat rel
    let p1 : St × List Event :=
      if c.dry_run then (st, if c.verbose then [Event.dryEnsure tdir] else [])
      else (⟨makedirsFS st.fs tdir, st.clock⟩, [Event.mkdirE tdir])
    let root := if rel = dotS then src_dir else joinPath src_dir rel
    let r2 := processFiles c root tdir files p1.1
    let r3 := runWalk c src_dir dest_dir rest r2.1
    (r3.1, p1.2 ++ r2.2 ++ r3.2)

/-- `backup_recursive` from `backup_az_final.py`. -/
def backup_recursive (c : Cfg) (src_dir dest_dir : Str) (tree : DirTree)
    (st : St) : St × List Event :=
  runWalk c src_dir dest_dir (walkRel dotS tree) st

/-- How the traversal of one run ends: normally, by a user interrupt, or by
an unexpected exception. -/
inductive TravEnd : Type where
  | ok : TravEnd
  | keyboard : TravEnd
  | othererr : TravEnd
  deriving DecidableEq

/-- The parsed command line of one invocation. -/
structure Args where
  source : Str
  destination : Str
  flat : Bool
  dry_run : Bool
  verbose : Bool

/-- The environment of one run: whether the source path exists and is a
directory, whether creating the destination raises, how the traversal ends,
the source tree walked, and the clock and failure oracles. -/
structure World where
  sourceExists : Bool
  sourceIsDir : Bool
  destFails : Bool
  travEnd : TravEnd
  tree : DirTree
  times : Nat → UTCTime
  fails : Str → Str → Option Str

/-- The configuration the engine derives from the environment and the
arguments. -/
def cfgOf (w : World) (a : Args) : Cfg :=
  ⟨w.times, w.fails, a.flat, a.dry_run, a.verbose⟩

/-- `main` from `backup_az_final.py`, as exit code, final state and events:
validate the source (exit 1), prepare the destination unless simulating
(exit 1 on failure), run the traversal (exit 130 on interrupt, 1 on an
unexpected exception, 0 otherwise).  On the interrupted and failed traversal
branches the partial traversal state is not tracked; no claim concerns it. -/
def mainRun (w : World) (a : Args) (st : St) : Nat × St × List Event :=
  if w.sourceExists = false then (1, st, [])
  else if w.sourceIsDir = false then (1, st, [])
  else if a.dry_run = false ∧ w.destFails = true then (1, st, [])
  else
    let st1 : St := if a.dry_run then st else ⟨makedirsFS st.fs a.destination, st.clock⟩
    let evDest : List Event := if a.dry_run then [] else [Event.mkdirE a.destination]
    match w.travEnd with
    | .keyboard => (130, st1, evDest)
    | .othererr => (1, st1, evDest)
    | .ok =>
      let r := backup_recursive (cfgOf w a) a.source a.destination w.tree st1
      (0, r.1, evDest ++ r.2)

/-- The copy/rename actions among a run's events: reported plans of a dry
run, performed copies of a live run. -/
def copyActions (evs : List Event) : List (Bool × Str × Str) :=
  evs.filterMap fun e =>
    match e with
    | .copyA r s t => some (r, s, t)
    | _ => none

/-- The broken-down time as one number, ordered chronologically (every field
of a `datetime` is below 100 except the year, which is below 10000). -/
def timeKey (t : UTCTime) : Nat :=
  ((((t.year * 100 + t.month) * 100 + t.day) * 100 + t.hour) * 100 + t.minute) * 100 +
    t.second

/-- The source file a copy or failure event is about. -/
def eventSrc : Event → Option Str
  | .copyA _ s _ => some s
  | .failE s _ _ => some s
  | _ => none

/-- Checks, along the live (non-simulated) per-file loop, that every file's
collision probe gives the same answer as against the initial filesystem `fs0`
and that its copy does not fail; also returns the state the live loop
reaches. -/
def filesAgree (c : Cfg) (fs0 : List Str) (root tdir : Str) :
    List Str → St → Bool × St
  | [], st => (true, st)
  | f :: rest, st =>
    let src_file := joinPath root f
    let dest_file := joinPath tdir f
    let target := unique_name st.fs (c.times st.clock) dest_file
    let cond := (pexists st.fs dest_file == pexists fs0 dest_file) &&
      (c.fails src_file target).isNone
    let st1 := (copy_file c src_file dest_file st).1
    let r := filesAgree c fs0 root tdir rest st1
    (cond && r.1, r.2)

/-- `filesAgree` extended over the walked levels, threading the live run's
directory creations. -/
def walkAgree (c : Cfg) (fs0 : List Str) (src_dir dest_dir : Str) :
    List (Str × List Str) → St → Bool × St
  | [], st => (true, st)
  | (rel, files) :: rest, st =>
    let tdir := target_dir dest_dir c.flat rel
    let st1 : St := ⟨makedirsFS st.fs tdir, st.clock⟩
    let root := if rel = dotS then src_dir else joinPath src_dir rel
    let r1 := filesAgree c fs0 root tdir files st1
    let r2 := walkAgree c fs0 src_dir dest_dir rest r1.2
    (r1.1 && r2.1, r2.2)

/-- Non-interference of a run: along the live execution, no filesystem entry
the run itself creates changes a later collision probe relative to the
initial state, and no per-file copy fails. -/
def runsAgree (w : World) (a : Args) (st : St) : Bool :=
  (walkAgree (cfgOf w { a with dry_run := false }) st.fs a.source a.destination
    (walkRel dotS w.tree) ⟨makedirsFS st.fs a.destination, st.clock⟩).1

/-! Concrete trees, worlds and configurations used by the closed witness
and counterexample statements. -/

def treeT : DirTree :=
  .node [] (.cons (str "a") (.node [str "f"] .nil) (.cons (str "b") (.node [str "f"] .nil) .nil))

def worldT : World :=
  ⟨true, true, false, .ok, treeT, fun _ => ⟨2026, 1, 2, 3, 4, 5⟩, fun _ _ => none⟩

def argsDryT : Args := ⟨str "s", str "d", true, true, false⟩
def argsLiveT : Args := ⟨str "s", str "d", true, false, false⟩

def tW0 : UTCTime := ⟨2026, 1, 2, 3, 4, 5⟩
def tW1 : UTCTime := ⟨2026, 1, 2, 3, 4, 6⟩
def fsC2 : List Str := [str "d/a.txt", str "d/a_20260102-030405.txt"]

def worldMissT : World :=
  ⟨false, false, false, .ok, treeT, fun _ => tW0, fun _ _ => none⟩
def worldKbT : World :=
  ⟨true, true, false, .keyboard, treeT, fun _ => tW0, fun _ _ => none⟩

def cFailT : Cfg :=
  ⟨fun _ => tW0, fun _ _ => some (str "EACCES"), false, false, false⟩
def worldFailT : World :=
  ⟨true, true, false, .ok, treeT, fun _ => tW0, fun _ _ => some (str "EACCES")⟩

def cDryQuietT : Cfg := ⟨fun _ => tW0, fun _ _ => none, true, true, false⟩
def cDryVerbT : Cfg := ⟨fun _ => tW0, fun _ _ => none, true, true, true⟩

def argsNestLiveT : Args := ⟨str "s", str "d", false, false, false⟩

theorem dig_lt {a b : Nat} (ha : a < 10) (hb : b < 10) (h : a < b) :
    dig a < dig b := by
  have key : ∀ i j : Fin 10, i < j → dig i.val < dig j.val := by decide
  exact key ⟨a, ha⟩ ⟨b, hb⟩ h

theorem lexAppendLeft (x : Str) {y1 y2 : Str}
    (h : List.Lex (· < ·) y1 y2) :
    List.Lex (· < ·) (x ++ y1) (x ++ y2) := by
  induction x with
  | nil => exact h
  | cons c cs ih => exact List.Lex.cons ih

theorem lexBlocks {x1 x2 : Str} (y1 y2 : Str)
    (hlen : x1.length = x2.length) (h : List.Lex (· < ·) x1 x2) :
    List.Lex (· < ·) (x1 ++ y1) (x2 ++ y2) := by
  induction h generalizing y1 y2 with
  | nil => simp at hlen
  | rel hr => exact List.Lex.rel hr
  | cons _ ih =>
    simp only [List.length_cons, Nat.succ.injEq] at hlen
    exact List.Lex.cons (ih _ _ hlen)

theorem two0_lex {a b : Nat} (ha : a < 100) (hb : b < 100) (h : a < b) :
    List.Lex (· < ·) (two0 a) (two0 b) := by
  unfold two0
  rcases Nat.lt_trichotomy (a / 10) (b / 10) with h1 | h1 | h1
  · exact List.Lex.rel (dig_lt (by omega) (by omega) h1)
  · rw [h1]
    exact List.Lex.cons (List.Lex.rel (dig_lt (by omega) (by omega) (by omega)))
  · exact absurd h1 (by omega)

theorem four0_lex {a b : Nat} (ha : a < 10000) (hb : b < 10000) (h : a < b) :
    List.Lex (· < ·) (four0 a) (four0 b) := by
  unfold four0
  rcases Nat.lt_trichotomy (a / 1000) (b / 1000) with h1 | h1 | h1
  · exact List.Lex.rel (dig_lt (by omega) (by omega) h1)
  · rw [h1]
    refine List.Lex.cons ?_
    rcases Nat.lt_trichotomy (a / 100 % 10) (b / 100 % 10) with h2 | h2 | h2
    · exact List.Lex.rel (dig_lt (by omega) (by omega) h2)
    · rw [h2]
      refine List.Lex.cons ?_
      rcases Nat.lt_trichotomy (a / 10 % 10) (b / 10 % 10) with h3 | h3 | h3
      · exact List.Lex.rel (dig_lt (by omega) (by omega) h3)
      · rw [h3]
        exact List.Lex.cons (List.Lex.rel (dig_lt (by omega) (by omega) (by omega)))
      · exact absurd h3 (by omega)
    · exact absurd h2 (by omega)
  · exact absurd h1 (by omega)

theorem tsFormat_lex {t1 t2 : UTCTime}
    (b1 : t1.year < 10000) (b2 : t1.month < 100) (b3 : t1.day < 100)
    (b4 : t1.hour < 100) (b5 : t1.minute < 100) (b6 : t1.second < 100)
    (c1 : t2.year < 10000) (c2 : t2.month < 100) (c3 : t2.day < 100)
    (c4 : t2.hour < 100) (c5 : t2.minute < 100) (c6 : t2.second < 100)
    (hk : timeKey t1 < timeKey t2) :
    List.Lex (· < ·) (tsFormat t1) (tsFormat t2) := by
  unfold timeKey at hk
  unfold tsFormat
  rcases Nat.lt_trichotomy t1.year t2.year with hy | hy | hy
  · exact lexBlocks _ _ (by simp [four0]) (four0_lex b1 c1 hy)
  · rw [← hy]
    apply lexAppendLeft
    rcases Nat.lt_trichotomy t1.month t2.month with hmo | hmo | hmo
    · exact lexBlocks _ _ (by simp [two0]) (two0_lex b2 c2 hmo)
    · rw [← hmo]
      apply lexAppendLeft
      rcases Nat.lt_trichotomy t1.day t2.day with hd | hd | hd
      · exact lexBlocks _ _ (by simp [two0]) (two0_lex b3 c3 hd)
      · rw [← hd]
        apply lexAppendLeft
        refine List.Lex.cons ?_
        rcases Nat.lt_trichotomy t1.hour t2.hour with hh | hh | hh
        · exact lexBlocks _ _ (by simp [two0]) (two0_lex b4 c4 hh)
        · rw [← hh]
          apply lexAppendLeft
          rcases Nat.lt_trichotomy t1.minute t2.minute with hmi | hmi | hmi
          · exact lexBlocks _ _ (by simp [two0]) (two0_lex b5 c5 hmi)
          · rw [← hmi]
            apply lexAppendLeft
            exact two0_lex b6 c6 (by omega)
          · exact absurd hmi (by omega)
        · exact absurd hh (by omega)
      · exact absurd hd (by omega)
    · exact absurd hmo (by omega)
  · exact absurd hy (by omega)

theorem splitext_no_ext {b : Str}
    (h : '.' ∉ b ∨ ∃ r, b = '.' :: r ∧ '.' ∉ r) :
    splitext b = (b, []) := by
  rcases h with h | ⟨r, rfl, hr⟩
  · cases b with
    | nil => rfl
    | cons c cs =>
      simp only [List.mem_cons, not_or] at h
      have hc : (decide (c = '.') : Bool) = false := by
        simp only [decide_eq_false_iff_not]
        exact fun hcc => h.1 hcc.symm
      unfold splitext
      rw [List.dropWhile_cons, hc]
      simp only [Bool.false_eq_true, if_false]
      have hmem : ('.' ∈ c :: cs) = False := by
        simp only [List.mem_cons, not_or, eq_iff_iff, iff_false, not_or]
        exact ⟨fun hcc => h.1 hcc, h.2⟩
      simp [hmem]
  · cases r with
    | nil => rfl
    | cons c cs =>
      simp only [List.mem_cons, not_or] at hr
      have hc : (decide (c = '.') : Bool) = false := by
        simp only [decide_eq_false_iff_not]
        exact fun hcc => hr.1 hcc.symm
      unfold splitext
      rw [List.dropWhile_cons]
      simp only [decide_eq_true_eq, List.dropWhile_cons, hc]
      have hmem : '.' ∉ c :: cs := by
        simp only [List.mem_cons, not_or]
        exact ⟨fun hcc => hr.1 hcc, hr.2⟩
      simp [hmem]

/-- C1: the Collision Resolver returns a non-existing candidate unchanged;
for an existing candidate it returns the path in the same directory whose
basename is the stem, `_`, the UTC timestamp `%Y%m%d-%H%M%S` (4-digit year,
2-digit month, day, hour, minute, second, one separator between date and
time, fixed width 15, lexicographically sortable), then the extension. -/
theorem C1_collision_resolver (fs : List Str) (t : UTCTime) (p : Str)
    (hy : t.year < 10000) (hmo : t.month < 100) (hd : t.day < 100)
    (hh : t.hour < 100) (hmi : t.minute < 100) (hs : t.second < 100) :
    (pexists fs p = false → unique_name fs t p = p)
    ∧ (pexists fs p = true →
        unique_name fs t p =
          joinPath (dirname p)
            ((splitext (basename p)).1 ++ '_' ::
              (tsFormat t ++ (splitext (basename p)).2)))
    ∧ tsFormat t =
        four0 t.year ++ (two0 t.month ++ (two0 t.day ++
          ('-' :: (two0 t.hour ++ (two0 t.minute ++ two0 t.second)))))
    ∧ (four0 t.year).length = 4 ∧ (two0 t.month).length = 2
    ∧ (two0 t.day).length = 2 ∧ (two0 t.hour).length = 2
    ∧ (two0 t.minute).length = 2 ∧ (two0 t.second).length = 2
    ∧ (tsFormat t).length = 15
    ∧ (∀ t2 : UTCTime, t2.year < 10000 → t2.month < 100 → t2.day < 100 →
        t2.hour < 100 → t2.minute < 100 → t2.second < 100 →
        timeKey t < timeKey t2 →
        List.Lex (· < ·) (tsFormat t) (tsFormat t2)) := by
  refine ⟨fun h => by simp [unique_name, h], fun h => by simp [unique_name, h],
    rfl, rfl, rfl, rfl, rfl, rfl, rfl, by simp [tsFormat, four0, two0], ?_⟩
  intro t2 d1 d2 d3 d4 d5 d6 hk
  exact tsFormat_lex hy hmo hd hh hmi hs d1 d2 d3 d4 d5 d6 hk

theorem C1_witness :
    unique_name [] tW0 (str "d/a.txt") = str "d/a.txt" ∧
    unique_name [str "d/a.txt"] tW0 (str "d/a.txt") =
      joinPath (dirname (str "d/a.txt"))
        ((splitext (basename (str "d/a.txt"))).1 ++ '_' ::
          (tsFormat tW0 ++ (splitext (basename (str "d/a.txt"))).2)) ∧
    List.Lex (· < ·) (tsFormat tW0) (tsFormat tW1) :=
  ⟨(C1_collision_resolver [] tW0 (str "d/a.txt") (by decide) (by decide)
      (by decide) (by decide) (by decide) (by decide)).1 (by decide),
   (C1_collision_resolver [str "d/a.txt"] tW0 (str "d/a.txt") (by decide)
      (by decide) (by decide) (by decide) (by decide) (by decide)).2.1 (by decide),
   (C1_collision_resolver [] tW0 (str "d/a.txt") (by decide) (by decide)
      (by decide) (by decide) (by decide) (by decide)).2.2.2.2.2.2.2.2.2.2 tW1
      (by decide) (by decide) (by decide) (by decide) (by decide) (by decide)
      (by decide)⟩

/-- C2, counterexample: with both `d/a.txt` and the timestamp-suffixed
`d/a_20260102-030405.txt` existing, the resolver returns a path that exists
at the time of decision, contradicting the claimed invariant. -/
theorem C2_counterexample :
    pexists fsC2 (str "d/a.txt") = true ∧
    pexists fsC2 (unique_name fsC2 tW0 (str "d/a.txt")) = true := by decide

/-- C2, amended: the resolver's result does not exist provided that, when the
candidate exists, the timestamp-suffixed name does not itself exist at the
time of decision (the resolver never re-probes its suffixed result). -/
theorem C2_amended (fs : List Str) (t : UTCTime) (p : Str) :
    (pexists fs p = false → pexists fs (unique_name fs t p) = false)
    ∧ (pexists fs p = true →
        pexists fs (joinPath (dirname p)
          ((splitext (basename p)).1 ++ '_' ::
            (tsFormat t ++ (splitext (basename p)).2))) = false →
        pexists fs (unique_name fs t p) = false) := by
  constructor
  · intro h
    have he : unique_name fs t p = p := by simp [unique_name, h]
    rw [he]; exact h
  · intro h1 h2
    have he : unique_name fs t p =
        joinPath (dirname p)
          ((splitext (basename p)).1 ++ '_' ::
            (tsFormat t ++ (splitext (basename p)).2)) := by
      simp [unique_name, h1]
    rw [he]; exact h2

theorem C2_amended_witness :
    pexists [str "d/a.txt"] (unique_name [str "d/a.txt"] tW0 (str "d/a.txt")) =
      false :=
  (C2_amended [str "d/a.txt"] tW0 (str "d/a.txt")).2 (by decide) (by decide)

/-- C5: the Path Planner yields the destination root in flat mode regardless
of depth, and in nested mode yields the destination root for the relative
path `.` and the joined path otherwise. -/
theorem C5_path_planner (d rel : Str) :
    target_dir d true rel = d
    ∧ (rel = dotS → target_dir d false rel = d)
    ∧ (rel ≠ dotS → target_dir d false rel = joinPath d rel) := by
  refine ⟨rfl, fun h => ?_, fun h => ?_⟩
  · simp [target_dir, h]
  · simp [target_dir, h]

theorem C5_witness :
    target_dir (str "d") false dotS = str "d" ∧
    target_dir (str "d") false (str "a") = joinPath (str "d") (str "a") :=
  ⟨(C5_path_planner (str "d") dotS).2.1 rfl,
   (C5_path_planner (str "d") (str "a")).2.2 (by decide)⟩

/-- C10: on a collision whose basename has no extension under `splitext`
(no dot, or a hidden-file name with a single leading dot), the suffix `_`
plus timestamp is appended at the very end of the name with an empty
extension. -/
theorem C10_no_extension (fs : List Str) (t : UTCTime) (p : Str)
    (hex : pexists fs p = true)
    (h : '.' ∉ basename p ∨ ∃ r, basename p = '.' :: r ∧ '.' ∉ r) :
    unique_name fs t p =
      joinPath (dirname p) (basename p ++ '_' :: tsFormat t) := by
  have hsp := splitext_no_ext h
  simp [unique_name, hex, hsp]

theorem C10_witness :
    unique_name [str "d/README"] tW0 (str "d/README") =
      joinPath (dirname (str "d/README"))
        (basename (str "d/README") ++ '_' :: tsFormat tW0) ∧
    unique_name [str "d/.env"] tW0 (str "d/.env") =
      joinPath (dirname (str "d/.env"))
        (basename (str "d/.env") ++ '_' :: tsFormat tW0) :=
  ⟨C10_no_extension [str "d/README"] tW0 (str "d/README") (by decide)
      (Or.inl (by decide)),
   C10_no_extension [str "d/.env"] tW0 (str "d/.env") (by decide)
      (Or.inr ⟨str "env", by decide, by decide⟩)⟩

theorem copy_file_events (c : Cfg) (src dst : Str) (st : St) :
    (copy_file c src dst st).2 =
      [Event.copyA (decide (unique_name st.fs (c.times st.clock) dst ≠ dst))
        src (unique_name st.fs (c.times st.clock) dst)]
    ∨ ∃ msg, c.fails src (unique_name st.fs (c.times st.clock) dst) = some msg ∧
        (copy_file c src dst st).2 =
          [Event.failE src (unique_name st.fs (c.times st.clock) dst) msg] := by
  simp only [copy_file]
  by_cases h : c.dry_run = true
  · left; rw [if_pos h]
  · rw [if_neg h]
    cases hf : c.fails src (unique_name st.fs (c.times st.clock) dst) with
    | none => left; simp [hf]
    | some msg => right; exact ⟨msg, rfl, by simp [hf]⟩

theorem copy_file_dry_fs (c : Cfg) (h : c.dry_run = true) (src dst : Str)
    (st : St) : ((copy_file c src dst st).1).fs = st.fs := by
  simp [copy_file, h]

theorem processFiles_dry_fs (c : Cfg) (h : c.dry_run = true) (root tdir : Str) :
    ∀ (files : List Str) (st : St),
      ((processFiles c root tdir files st).1).fs = st.fs := by
  intro files
  induction files with
  | nil => intro st; rfl
  | cons f rest ih =>
    intro st
    simp only [processFiles]
    rw [ih]
    exact copy_file_dry_fs c h _ _ st

theorem runWalk_dry_fs (c : Cfg) (h : c.dry_run = true) (sd dd : Str) :
    ∀ (items : List (Str × List Str)) (st : St),
      ((runWalk c sd dd items st).1).fs = st.fs := by
  intro items
  induction items with
  | nil => intro st; rfl
  | cons lv rest ih =>
    intro st
    obtain ⟨rel, files⟩ := lv
    simp only [runWalk]
    rw [if_pos h, ih, processFiles_dry_fs c h]

theorem copy_file_no_mkdir (c : Cfg) (src dst : Str) (st : St) (p : Str) :
    Event.mkdirE p ∉ (copy_file c src dst st).2 := by
  rcases copy_file_events c src dst st with he | ⟨msg, _, he⟩ <;> simp [he]

theorem processFiles_no_mkdir (c : Cfg) (root tdir : Str) :
    ∀ (files : List Str) (st : St) (p : Str),
      Event.mkdirE p ∉ (processFiles c root tdir files st).2 := by
  intro files
  induction files with
  | nil => intro st p; simp [processFiles]
  | cons f rest ih =>
    intro st p
    simp only [processFiles, List.mem_append, not_or]
    exact ⟨copy_file_no_mkdir c _ _ st p, ih _ p⟩

theorem runWalk_dry_no_mkdir (c : Cfg) (h : c.dry_run = true) (sd dd : Str) :
    ∀ (items : List (Str × List Str)) (st : St) (p : Str),
      Event.mkdirE p ∉ (runWalk c sd dd items st).2 := by
  intro items
  induction items with
  | nil => intro st p; simp [runWalk]
  | cons lv rest ih =>
    intro st p
    obtain ⟨rel, files⟩ := lv
    simp only [runWalk, if_pos h, List.append_assoc, List.mem_append, not_or]
    refine ⟨?_, processFiles_no_mkdir c _ _ files _ p, ih _ p⟩
    by_cases hv : c.verbose = true <;> simp [hv]

/-- C3: with the dry-run flag set, no filesystem entry is created, modified
or deleted, whatever the other flags and however the run ends: the
filesystem is unchanged and no directory creation is performed. -/
theorem C3_dry_run_no_mutation (w : World) (a : Args) (st : St)
    (h : a.dry_run = true) :
    ((mainRun w a st).2.1).fs = st.fs ∧
    ∀ p, Event.mkdirE p ∉ (mainRun w a st).2.2 := by
  unfold mainRun
  by_cases hse : w.sourceExists = false
  · simp [hse]
  · rw [if_neg hse]
    by_cases hsd : w.sourceIsDir = false
    · simp [hsd]
    · rw [if_neg hsd]
      have hcond : ¬ (a.dry_run = false ∧ w.destFails = true) := by
        rintro ⟨h1, _⟩
        rw [h] at h1
        simp at h1
      rw [if_neg hcond, if_pos h, if_pos h]
      cases ht : w.travEnd with
      | keyboard => simp
      | othererr => simp
      | ok =>
        refine ⟨runWalk_dry_fs (cfgOf w a) h a.source a.destination _ st, ?_⟩
        intro p
        simp only [List.nil_append]
        exact runWalk_dry_no_mkdir (cfgOf w a) h _ _ _ st p

theorem C3_witness :
    ((mainRun worldT argsDryT ⟨[], 0⟩).2.1).fs = [] ∧
    Event.mkdirE (str "d") ∉ (mainRun worldT argsDryT ⟨[], 0⟩).2.2 :=
  ⟨(C3_dry_run_no_mutation worldT argsDryT ⟨[], 0⟩ rfl).1,
   (C3_dry_run_no_mutation worldT argsDryT ⟨[], 0⟩ rfl).2 (str "d")⟩

/-- C7: exit code 1 for a missing source (with no destination mutation), a
non-directory source, an uncreatable destination, or an unexpected traversal
error; 130 for a user interrupt mid-traversal; 0 otherwise. -/
theorem C7_exit_codes (w : World) (a : Args) (st : St) :
    (w.sourceExists = false →
      (mainRun w a st).1 = 1 ∧ (mainRun w a st).2.1 = st)
    ∧ (w.sourceExists = true → w.sourceIsDir = false → (mainRun w a st).1 = 1)
    ∧ (w.sourceExists = true → w.sourceIsDir = true → a.dry_run = false →
        w.destFails = true → (mainRun w a st).1 = 1)
    ∧ (w.sourceExists = true → w.sourceIsDir = true →
        (a.dry_run = true ∨ w.destFails = false) →
        ((w.travEnd = TravEnd.keyboard → (mainRun w a st).1 = 130)
         ∧ (w.travEnd = TravEnd.othererr → (mainRun w a st).1 = 1)
         ∧ (w.travEnd = TravEnd.ok → (mainRun w a st).1 = 0))) := by
  refine ⟨fun h => ?_, fun h1 h2 => ?_, fun h1 h2 h3 h4 => ?_, fun h1 h2 h3 => ?_⟩
  · simp [mainRun, h]
  · simp [mainRun, h1, h2]
  · simp [mainRun, h1, h2, h3, h4]
  · have hcond : ¬ (a.dry_run = false ∧ w.destFails = true) := by
      rintro ⟨hd, hf⟩
      rcases h3 with h3 | h3
      · rw [h3] at hd; simp at hd
      · rw [h3] at hf; simp at hf
    refine ⟨fun ht => ?_, fun ht => ?_, fun ht => ?_⟩ <;>
      simp [mainRun, h1, h2, hcond, ht]

theorem C7_witness :
    (mainRun worldMissT argsLiveT ⟨[], 0⟩).1 = 1 ∧
    (mainRun worldKbT argsLiveT ⟨[], 0⟩).1 = 130 ∧
    (mainRun worldT argsLiveT ⟨[], 0⟩).1 = 0 :=
  ⟨((C7_exit_codes worldMissT argsLiveT ⟨[], 0⟩).1 rfl).1,
   ((C7_exit_codes worldKbT argsLiveT ⟨[], 0⟩).2.2.2 rfl rfl (Or.inr rfl)).1 rfl,
   ((C7_exit_codes worldT argsLiveT ⟨[], 0⟩).2.2.2 rfl rfl (Or.inr rfl)).2.2 rfl⟩

theorem processFiles_visits (c : Cfg) (root tdir : Str) :
    ∀ (files : List Str) (st : St) (f : Str), f ∈ files →
      ((processFiles c root tdir files st).2.any
        fun e => eventSrc e == some (joinPath root f)) = true := by
  intro files
  induction files with
  | nil => intro st f hf; simp at hf
  | cons g rest ih =>
    intro st f hf
    simp only [processFiles, List.any_append, Bool.or_eq_true]
    rcases List.mem_cons.mp hf with rfl | hf2
    · left
      rcases copy_file_events c (joinPath root f) (joinPath tdir f) st with
        he | ⟨msg, _, he⟩ <;> simp [he, eventSrc]
    · right
      exact ih _ f hf2

/-- C4: a live-mode per-file copy failure is caught inside the Copy Executor,
which leaves the filesystem unchanged and reports the failure with the paths
and the underlying message; every file of a level still yields an outcome
event, and a run whose traversal completes exits with code 0 regardless of
per-file failures. -/
theorem C4_per_file_errors :
    (∀ (c : Cfg) (src dst : Str) (st : St) (msg : Str),
      c.dry_run = false →
      c.fails src (unique_name st.fs (c.times st.clock) dst) = some msg →
      ((copy_file c src dst st).1).fs = st.fs ∧
      (copy_file c src dst st).2 =
        [Event.failE src (unique_name st.fs (c.times st.clock) dst) msg])
    ∧ (∀ (c : Cfg) (root tdir : Str) (files : List Str) (st : St) (f : Str),
        f ∈ files →
        ((processFiles c root tdir files st).2.any
          fun e => eventSrc e == some (joinPath root f)) = true)
    ∧ (∀ (w : World) (a : Args) (st : St),
        w.sourceExists = true → w.sourceIsDir = true →
        (a.dry_run = true ∨ w.destFails = false) → w.travEnd = TravEnd.ok →
        (mainRun w a st).1 = 0) := by
  refine ⟨fun c src dst st msg hdry hf => ?_, processFiles_visits, ?_⟩
  · constructor
    · simp [copy_file, hdry, hf]
    · simp [copy_file, hdry, hf]
  · intro w a st h1 h2 h3 ht
    have hcond : ¬ (a.dry_run = false ∧ w.destFails = true) := by
      rintro ⟨hd, hfl⟩
      rcases h3 with h3 | h3
      · rw [h3] at hd; simp at hd
      · rw [h3] at hfl; simp at hfl
    simp [mainRun, h1, h2, hcond, ht]

theorem C4_witness :
    (copy_file cFailT (str "s/f") (str "d/f") ⟨[], 0⟩).2 =
      [Event.failE (str "s/f") (unique_name [] (cFailT.times 0) (str "d/f"))
        (str "EACCES")] ∧
    ((processFiles cFailT (str "s") (str "d") [str "f"] ⟨[], 0⟩).2.any
      fun e => eventSrc e == some (joinPath (str "s") (str "f"))) = true ∧
    (mainRun worldFailT argsLiveT ⟨[], 0⟩).1 = 0 :=
  ⟨(C4_per_file_errors.1 cFailT (str "s/f") (str "d/f") ⟨[], 0⟩ (str "EACCES")
      rfl rfl).2,
   C4_per_file_errors.2.1 cFailT (str "s") (str "d") [str "f"] ⟨[], 0⟩
      (str "f") (by decide),
   C4_per_file_errors.2.2 worldFailT argsLiveT ⟨[], 0⟩ rfl rfl (Or.inr rfl) rfl⟩

theorem copy_file_no_dryEnsure (c : Cfg) (src dst : Str) (st : St) (p : Str) :
    Event.dryEnsure p ∉ (copy_file c src dst st).2 := by
  rcases copy_file_events c src dst st with he | ⟨msg, _, he⟩ <;> simp [he]

theorem processFiles_no_dryEnsure (c : Cfg) (root tdir : Str) :
    ∀ (files : List Str) (st : St) (p : Str),
      Event.dryEnsure p ∉ (processFiles c root tdir files st).2 := by
  intro files
  induction files with
  | nil => intro st p; simp [processFiles]
  | cons f rest ih =>
    intro st p
    simp only [processFiles, List.mem_append, not_or]
    exact ⟨copy_file_no_dryEnsure c _ _ st p, ih _ p⟩

theorem runWalk_quiet_no_dryEnsure (c : Cfg) (h : c.dry_run = true)
    (hv : c.verbose = false) (sd dd : Str) :
    ∀ (items : List (Str × List Str)) (st : St) (p : Str),
      Event.dryEnsure p ∉ (runWalk c sd dd items st).2 := by
  intro items
  induction items with
  | nil => intro st p; simp [runWalk]
  | cons lv rest ih =>
    intro st p
    obtain ⟨rel, files⟩ := lv
    simp only [runWalk, if_pos h, List.append_assoc, List.mem_append, not_or]
    refine ⟨?_, processFiles_no_dryEnsure c _ _ files _ p, ih _ p⟩
    simp [hv]

theorem runWalk_verbose_dryEnsure (c : Cfg) (h : c.dry_run = true)
    (hv : c.verbose = true) (sd dd : Str) :
    ∀ (items : List (Str × List Str)) (st : St) (rel : Str) (files : List Str),
      (rel, files) ∈ items →
      Event.dryEnsure (target_dir dd c.flat rel) ∈ (runWalk c sd dd items st).2 := by
  intro items
  induction items with
  | nil => intro st rel files hm; simp at hm
  | cons lv rest ih =>
    intro st rel files hm
    obtain ⟨rel2, files2⟩ := lv
    simp only [runWalk, if_pos h, hv, if_pos, List.append_assoc, List.mem_append]
    rcases List.mem_cons.mp hm with heq | hm2
    · left
      obtain ⟨h1, h2⟩ := Prod.mk.injEq .. ▸ heq
      simp [Prod.mk.injEq] at heq
      simp [heq.1]
    · right; right
      exact ih _ rel files hm2

/-- C9, counterexample: in a dry run without the verbose flag, no
`Ensure directory exists` intent is reported, not even for the destination
root, although the claim requires the report independently of the verbose
flag. -/
theorem C9_counterexample :
    Event.dryEnsure (str "d") ∉ (mainRun worldT argsDryT ⟨[], 0⟩).2.2 := by
  decide

/-- C9, amended: in a dry run the intent to ensure each level's target
directory (the destination root included, via the level whose relative path
is `.`) is reported exactly when the verbose flag is set: with verbose unset
nothing is reported, with verbose set every level is reported. -/
theorem C9_amended (c : Cfg) (sd dd : Str) (tree : DirTree) (st : St)
    (hdry : c.dry_run = true) :
    (c.verbose = false →
      ∀ p, Event.dryEnsure p ∉ (backup_recursive c sd dd tree st).2)
    ∧ (c.verbose = true →
      ∀ rel files, (rel, files) ∈ walkRel dotS tree →
        Event.dryEnsure (target_dir dd c.flat rel) ∈
          (backup_recursive c sd dd tree st).2) := by
  constructor
  · intro hv p
    exact runWalk_quiet_no_dryEnsure c hdry hv sd dd _ st p
  · intro hv rel files hm
    exact runWalk_verbose_dryEnsure c hdry hv sd dd _ st rel files hm

theorem C9_witness :
    Event.dryEnsure (str "d") ∉
      (backup_recursive cDryQuietT (str "s") (str "d") treeT ⟨[], 0⟩).2 ∧
    Event.dryEnsure (target_dir (str "d") true dotS) ∈
      (backup_recursive cDryVerbT (str "s") (str "d") treeT ⟨[], 0⟩).2 :=
  ⟨(C9_amended cDryQuietT (str "s") (str "d") treeT ⟨[], 0⟩ rfl).1 rfl (str "d"),
   (C9_amended cDryVerbT (str "s") (str "d") treeT ⟨[], 0⟩ rfl).2 rfl dotS []
      (by decide)⟩

theorem takeToLastSep_isPre (p : Str) : takeToLastSep p <+: p := by
  induction p with
  | nil => exact List.prefix_refl _
  | cons c cs ih =>
    simp only [takeToLastSep]
    by_cases h : '/' ∈ cs
    · rw [if_pos h]
      obtain ⟨t, ht⟩ := ih
      exact ⟨t, by rw [List.cons_append, ht]⟩
    · rw [if_neg h]
      by_cases hc : c = '/'
      · rw [if_pos hc, hc]
        exact ⟨cs, rfl⟩
      · rw [if_neg hc]
        exact List.nil_prefix

theorem rstripSlash_isPre (s : Str) : rstripSlash s <+: s := by
  refine ⟨(s.reverse.takeWhile fun c => decide (c = '/')).reverse, ?_⟩
  rw [rstripSlash, ← List.reverse_append, List.takeWhile_append_dropWhile,
    List.reverse_reverse]

theorem dirname_isPre (p : Str) : dirname p <+: p := by
  unfold dirname
  by_cases h : takeToLastSep p ≠ [] ∧
      ¬ ((takeToLastSep p).all fun c => decide (c = '/'))
  · rw [if_pos h]
    exact (rstripSlash_isPre _).trans (takeToLastSep_isPre p)
  · rw [if_neg h]
    exact takeToLastSep_isPre p

theorem dirChainAux_isPre :
    ∀ (n : Nat) (p q : Str), q ∈ dirChainAux n p → q <+: p := by
  intro n
  induction n with
  | zero =>
    intro p q hq
    simp [dirChainAux] at hq
    rw [hq]
  | succ m ih =>
    intro p q hq
    simp only [dirChainAux] at hq
    by_cases h : dirname p = [] ∨ dirname p = p
    · rw [if_pos h] at hq
      simp at hq
      rw [hq]
    · rw [if_neg h] at hq
      rcases List.mem_cons.mp hq with rfl | hq2
      · exact List.prefix_refl _
      · exact (ih _ _ hq2).trans (dirname_isPre p)

theorem dirChain_not_under (p q : Str) (hq : q ∈ dirChain p) :
    ¬ ((p ++ ['/']) <+: q) := by
  intro hpre
  have h1 := (dirChainAux_isPre _ p q hq).length_le
  have h2 := hpre.length_le
  simp [List.length_append] at h2
  omega

theorem runWalk_flat_mkdir (c : Cfg) (hflat : c.flat = true) (sd dd : Str) :
    ∀ (items : List (Str × List Str)) (st : St) (p : Str),
      Event.mkdirE p ∈ (runWalk c sd dd items st).2 → p = dd := by
  intro items
  induction items with
  | nil => intro st p hp; simp [runWalk] at hp
  | cons lv rest ih =>
    intro st p hp
    obtain ⟨rel, files⟩ := lv
    simp only [runWalk, List.append_assoc, List.mem_append] at hp
    rcases hp with hp | hp | hp
    · by_cases hd : c.dry_run = true
      · rw [if_pos hd] at hp
        by_cases hv : c.verbose = true
        · simp [hv] at hp
        · simp [hv] at hp
      · rw [if_neg hd] at hp
        simp at hp
        rw [hp]
        simp [target_dir, hflat]
    · exact absurd hp (processFiles_no_mkdir c _ _ files _ p)
    · exact ih _ p hp

/-- C6: in flat mode every directory creation performed during the run is of
the destination root itself, and nothing `os.makedirs` creates for the
destination root (the root or one of its parents, each a prefix of the root)
lies strictly under the destination root. -/
theorem C6_flat_only_destroot (w : World) (a : Args) (st : St)
    (hflat : a.flat = true) :
    (∀ p, Event.mkdirE p ∈ (mainRun w a st).2.2 → p = a.destination)
    ∧ ∀ q ∈ dirChain a.destination, ¬ ((a.destination ++ ['/']) <+: q) := by
  constructor
  · intro p hp
    simp only [mainRun] at hp
    by_cases hse : w.sourceExists = false
    · rw [if_pos hse] at hp; simp at hp
    · rw [if_neg hse] at hp
      by_cases hsd : w.sourceIsDir = false
      · rw [if_pos hsd] at hp; simp at hp
      · rw [if_neg hsd] at hp
        by_cases hc : a.dry_run = false ∧ w.destFails = true
        · rw [if_pos hc] at hp; simp at hp
        · rw [if_neg hc] at hp
          have hdest : ∀ hq : Event.mkdirE p ∈
              (if a.dry_run then ([] : List Event)
               else [Event.mkdirE a.destination]), p = a.destination := by
            intro hq
            by_cases hd : a.dry_run = true
            · rw [if_pos hd] at hq; simp at hq
            · rw [if_neg hd] at hq; simpa using hq
          revert hp
          cases w.travEnd with
          | keyboard => intro hp; exact hdest hp
          | othererr => intro hp; exact hdest hp
          | ok =>
            intro hp
            rcases List.mem_append.mp hp with hp | hp
            · exact hdest hp
            · exact runWalk_flat_mkdir (cfgOf w a) hflat a.source a.destination
                _ _ p hp
  · intro q hq
    exact dirChain_not_under a.destination q hq

theorem C6_witness :
    str "d" = argsLiveT.destination ∧
    ¬ ((argsLiveT.destination ++ ['/']) <+: str "d") :=
  ⟨(C6_flat_only_destroot worldT argsLiveT ⟨[], 0⟩ rfl).1 (str "d") (by decide),
   (C6_flat_only_destroot worldT argsLiveT ⟨[], 0⟩ rfl).2 (str "d") (by decide)⟩

theorem unique_name_congr (fs1 fs2 : List Str) (t : UTCTime) (p : Str)
    (h : pexists fs1 p = pexists fs2 p) :
    unique_name fs1 t p = unique_name fs2 t p := by
  unfold unique_name
  rw [h]

theorem copy_file_dry_eq (c : Cfg) (h : c.dry_run = true) (src dst : Str)
    (st : St) :
    copy_file c src dst st =
      (⟨st.fs, if pexists st.fs dst = true then st.clock + 1 else st.clock⟩,
       [Event.copyA (decide (unique_name st.fs (c.times st.clock) dst ≠ dst))
          src (unique_name st.fs (c.times st.clock) dst)]) := by
  simp [copy_file, h]

theorem copy_file_live_ok_eq (c : Cfg) (h : c.dry_run = false) (src dst : Str)
    (st : St)
    (hf : c.fails src (unique_name st.fs (c.times st.clock) dst) = none) :
    copy_file c src dst st =
      (⟨unique_name st.fs (c.times st.clock) dst :: st.fs,
        if pexists st.fs dst = true then st.clock + 1 else st.clock⟩,
       [Event.copyA (decide (unique_name st.fs (c.times st.clock) dst ≠ dst))
          src (unique_name st.fs (c.times st.clock) dst)]) := by
  simp [copy_file, h, hf]

theorem copyActions_append (xs ys : List Event) :
    copyActions (xs ++ ys) = copyActions xs ++ copyActions ys := by
  simp [copyActions]

theorem filesAgree_state (c : Cfg) (fs0 : List Str) (root tdir : Str) :
    ∀ (files : List Str) (st : St),
      (filesAgree c fs0 root tdir files st).2 =
        (processFiles c root tdir files st).1 := by
  intro files
  induction files with
  | nil => intro st; rfl
  | cons f rest ih =>
    intro st
    simp only [filesAgree, processFiles]
    exact ih _

theorem processFiles_agree (cL : Cfg) (hdry : cL.dry_run = false)
    (fs0 : List Str) (root tdir : Str) :
    ∀ (files : List Str) (stL stD : St),
      stD.fs = fs0 → stD.clock = stL.clock →
      (filesAgree cL fs0 root tdir files stL).1 = true →
      copyActions (processFiles { cL with dry_run := true } root tdir files stD).2 =
          copyActions (processFiles cL root tdir files stL).2
        ∧ ((processFiles { cL with dry_run := true } root tdir files stD).1).clock =
            ((processFiles cL root tdir files stL).1).clock
        ∧ ((processFiles { cL with dry_run := true } root tdir files stD).1).fs = fs0 := by
  intro files
  induction files with
  | nil =>
    intro stL stD hfs hck _
    exact ⟨rfl, hck, hfs⟩
  | cons f rest ih =>
    intro stL stD hfs hck hagree
    simp only [filesAgree, Bool.and_eq_true, beq_iff_eq,
      Option.isNone_iff_eq_none] at hagree
    obtain ⟨⟨hex, hfail⟩, hrest⟩ := hagree
    have hpex : pexists stD.fs (joinPath tdir f) =
        pexists stL.fs (joinPath tdir f) := by
      rw [hfs, hex]
    have htar : unique_name stD.fs (cL.times stD.clock) (joinPath tdir f) =
        unique_name stL.fs (cL.times stL.clock) (joinPath tdir f) := by
      rw [hck]
      exact unique_name_congr _ _ _ _ hpex
    rw [copy_file_live_ok_eq cL hdry _ _ _ hfail] at hrest
    simp only [processFiles]
    rw [copy_file_dry_eq { cL with dry_run := true } rfl,
      copy_file_live_ok_eq cL hdry _ _ _ hfail]
    dsimp only
    rw [htar, hpex, hck]
    obtain ⟨ihA, ihB, ihC⟩ := ih ⟨unique_name stL.fs (cL.times stL.clock)
        (joinPath tdir f) :: stL.fs,
        if pexists stL.fs (joinPath tdir f) = true then stL.clock + 1
        else stL.clock⟩
      ⟨stD.fs,
        if pexists stL.fs (joinPath tdir f) = true then stL.clock + 1
        else stL.clock⟩ hfs rfl hrest
    refine ⟨?_, ihB, ihC⟩
    rw [copyActions_append, copyActions_append, ihA]

theorem runWalk_agree (cL : Cfg) (hdry : cL.dry_run = false) (fs0 : List Str)
    (sd dd : Str) :
    ∀ (items : List (Str × List Str)) (stL stD : St),
      stD.fs = fs0 → stD.clock = stL.clock →
      (walkAgree cL fs0 sd dd items stL).1 = true →
      copyActions (runWalk { cL with dry_run := true } sd dd items stD).2 =
          copyActions (runWalk cL sd dd items stL).2
        ∧ ((runWalk { cL with dry_run := true } sd dd items stD).1).clock =
            ((runWalk cL sd dd items stL).1).clock
        ∧ ((runWalk { cL with dry_run := true } sd dd items stD).1).fs = fs0 := by
  intro items
  induction items with
  | nil =>
    intro stL stD hfs hck _
    exact ⟨rfl, hck, hfs⟩
  | cons lv rest ih =>
    intro stL stD hfs hck hagree
    obtain ⟨rel, files⟩ := lv
    simp only [walkAgree, Bool.and_eq_true] at hagree
    obtain ⟨hfiles, hrest⟩ := hagree
    simp only [runWalk]
    have hcL : ¬ (cL.dry_run = true) := by simp [hdry]
    rw [if_pos trivial, if_neg hcL]
    dsimp only
    obtain ⟨hA, hB, hC⟩ := processFiles_agree cL hdry fs0
      (if rel = dotS then sd else joinPath sd rel) (target_dir dd cL.flat rel)
      files ⟨makedirsFS stL.fs (target_dir dd cL.flat rel), stL.clock⟩ stD hfs
      hck hfiles
    rw [filesAgree_state] at hrest
    obtain ⟨hA2, hB2, hC2⟩ := ih _ _ hC hB hrest
    refine ⟨?_, hB2, hC2⟩
    by_cases hv : cL.verbose = true
    · rw [if_pos hv]
      simp only [copyActions_append, hA, hA2]
      rfl
    · rw [if_neg hv]
      simp only [copyActions_append, hA, hA2]
      rfl

/-- C8, amended: the copy/rename actions a dry run reports equal those the
live run performs from the same initial state, provided the live run is
non-interfering: none of its own filesystem additions changes a later
collision probe relative to the initial state, and no per-file copy fails. -/
theorem C8_amended (w : World) (a : Args) (st : St)
    (h1 : w.sourceExists = true) (h2 : w.sourceIsDir = true)
    (h3 : w.destFails = false) (h4 : w.travEnd = TravEnd.ok)
    (hagree : runsAgree w a st = true) :
    copyActions (mainRun w { a with dry_run := true } st).2.2 =
      copyActions (mainRun w { a with dry_run := false } st).2.2 := by
  simp only [mainRun, h1, h2, h3, h4, backup_recursive]
  norm_num
  have hskip : ∀ ys : List Event,
      copyActions (Event.mkdirE a.destination :: ys) = copyActions ys := by
    intro ys
    simp [copyActions]
  rw [hskip]
  exact (runWalk_agree (cfgOf w { a with dry_run := false }) rfl st.fs
    a.source a.destination (walkRel dotS w.tree)
    ⟨makedirsFS st.fs a.destination, st.clock⟩ st rfl rfl hagree).1

/-- C8, counterexample: flat mode with files `a/f` and `b/f` over an empty
destination.  The live run performs a rename of the second file (its own
first copy made `d/f` exist), an action the dry run from the same initial
state never reports, so the reported and performed action sets differ. -/
theorem C8_counterexample :
    (true, str "s/b/f", str "d/f_20260102-030405") ∈
      copyActions (mainRun worldT argsLiveT ⟨[], 0⟩).2.2 ∧
    (true, str "s/b/f", str "d/f_20260102-030405") ∉
      copyActions (mainRun worldT argsDryT ⟨[], 0⟩).2.2 := by
  decide

theorem C8_witness :
    copyActions (mainRun worldT { argsNestLiveT with dry_run := true }
        ⟨[], 0⟩).2.2 =
      copyActions (mainRun worldT { argsNestLiveT with dry_run := false }
        ⟨[], 0⟩).2.2 :=
  C8_amended worldT argsNestLiveT ⟨[], 0⟩ rfl rfl rfl rfl (by decide)
